import Mathlib

/-!
Verification of the video-dataset batch-processing pipeline
(`process/process_dataset.py`) and of the training-record conversion
(`src/edge_autotune/dnn/dataset.py`) of the HiEST/edgeautotuner repository.

The Python source is shallowly embedded: pure fragments become Lean
functions over lists, association lists model Python dicts, `Option` and
`Except` model raised exceptions, and floating-point values are modelled
as rationals.  External collaborators (the datetime parser, the model
inference call, `Path.stem`, the filesystem) are taken as function
parameters, exactly where the source delegates to a library.
-/

namespace EdgeAutotune

/-! ### Chunking (`chunks`, process_dataset.py lines 159-162)

`chunks(lst, n)` yields successive `n`-sized slices `lst[i:i+n]` for
`i = 0, n, 2n, ...`.  `chunksF` is the same computation for `n ≥ 1`;
invoking the generator with `n = 0` raises `ValueError` in Python and is
modelled separately by `chunksE`. -/

def chunksF {α : Type} (n : Nat) : List α → List (List α)
  | [] => []
  | x :: xs => (x :: xs).take n :: chunksF n (xs.drop (n - 1))
termination_by l => l.length
decreasing_by simp [List.length_drop]; omega

/-- `range(0, len(lst), 0)` raises `ValueError: range() arg 3 must not be
zero` as soon as the generator is first advanced, so chunking with size 0
is an error even on an empty list. -/
def chunksE {α : Type} (n : Nat) (l : List α) : Option (List (List α)) :=
  if n = 0 then none else some (chunksF n l)

theorem chunksF_eq_nil_iff {α : Type} (n : Nat) (l : List α) :
    chunksF n l = [] ↔ l = [] := by
  cases l <;> simp [chunksF]

theorem chunksF_flatten {α : Type} (n : Nat) (hn : 1 ≤ n) (l : List α) :
    (chunksF n l).flatten = l := by
  induction l using chunksF.induct n with
  | case1 => simp [chunksF]
  | case2 x xs ih =>
    rw [chunksF]
    simp only [List.flatten_cons]
    rw [ih]
    obtain ⟨m, rfl⟩ : ∃ m, n = m + 1 := ⟨n - 1, by omega⟩
    simp [List.take_succ_cons]

theorem chunksF_length {α : Type} (n : Nat) (hn : 1 ≤ n) (l : List α) :
    (chunksF n l).length = (l.length + n - 1) / n := by
  induction l using chunksF.induct n with
  | case1 =>
    simp only [chunksF, List.length_nil]
    rw [Nat.div_eq_of_lt (by omega)]
  | case2 x xs ih =>
    rw [chunksF]
    simp only [List.length_cons]
    rw [ih]
    simp only [List.length_drop]
    rcases Nat.lt_or_ge xs.length n with h | h
    · have h1 : xs.length - (n - 1) = 0 := by omega
      have hl : (0 + n - 1) / n = 0 := Nat.div_eq_of_lt (by omega)
      have hr : (xs.length + 1 + n - 1) / n = 1 := Nat.div_eq_of_lt_le (by omega) (by omega)
      rw [h1, hl, hr]
    · have h1 : xs.length - (n - 1) + n - 1 = xs.length := by omega
      have h2 : xs.length + 1 + n - 1 = xs.length + n := by omega
      rw [h1, h2, Nat.add_div_right _ (by omega)]

theorem chunksF_mem {α : Type} (n : Nat) (hn : 1 ≤ n) (l : List α) :
    ∀ c ∈ chunksF n l, c ≠ [] ∧ c.length ≤ n := by
  induction l using chunksF.induct n with
  | case1 => simp [chunksF]
  | case2 x xs ih =>
    rw [chunksF]
    intro c hc
    rcases List.mem_cons.mp hc with rfl | hc
    · constructor
      · obtain ⟨m, rfl⟩ : ∃ m, n = m + 1 := ⟨n - 1, by omega⟩
        simp [List.take_succ_cons]
      · simp only [List.length_take, List.length_cons]
        omega
    · exact ih c hc

theorem chunksF_getD_full {α : Type} (n : Nat) (hn : 1 ≤ n) (l : List α) :
    ∀ i, i + 1 < (chunksF n l).length → ((chunksF n l).getD i []).length = n := by
  induction l using chunksF.induct n with
  | case1 => simp [chunksF]
  | case2 x xs ih =>
    rw [chunksF]
    intro i hi
    match i with
    | 0 =>
      simp only [List.getD_cons_zero]
      simp only [List.length_cons] at hi
      have hrest : chunksF n (xs.drop (n - 1)) ≠ [] := by
        intro hempty
        rw [hempty] at hi
        simp at hi
      have hdrop : xs.drop (n - 1) ≠ [] := by
        intro hd
        exact hrest ((chunksF_eq_nil_iff n _).mpr hd)
      have hlen : n - 1 < xs.length := by
        by_contra hcon
        exact hdrop (List.drop_eq_nil_of_le (by omega))
      simp only [List.length_take, List.length_cons]
      omega
    | j + 1 =>
      simp only [List.getD_cons_succ]
      apply ih
      simp only [List.length_cons] at hi
      omega

/-! ### Worker clamping and wave dispatch (process_dataset.py lines 222-231)

`if len(query_args) < max_workers*2: max_workers = len(query_args)` and
then `chunks(query_args, max_workers*2)`. -/

def clampWorkers (numTasks maxWorkers : Nat) : Nat :=
  if numTasks < maxWorkers * 2 then numTasks else maxWorkers

def dispatchChunks {α : Type} (videos : List α) (maxWorkers : Nat) : List (List α) :=
  chunksF (clampWorkers videos.length maxWorkers * 2) videos

/-- C3: for every non-empty video list and configured worker count `w ≥ 1`,
the dispatched waves are consecutive chunks whose concatenation is the
input, every wave is non-empty and holds at most `2 * w'` videos (with
`w'` the worker count clamped down to the number of pending tasks when
fewer than `2 * w` exist), every wave but the last is full, and the number
of waves equals `ceil(videos / (2 * w))` computed with the configured `w`. -/
theorem dispatch_waves_spec {α : Type} (videos : List α) (w : Nat)
    (hv : videos ≠ []) (hw : 1 ≤ w) :
    (dispatchChunks videos w).flatten = videos ∧
    (dispatchChunks videos w).length = (videos.length + 2 * w - 1) / (2 * w) ∧
    (∀ c ∈ dispatchChunks videos w, c ≠ [] ∧
      c.length ≤ clampWorkers videos.length w * 2) ∧
    (∀ i, i + 1 < (dispatchChunks videos w).length →
      ((dispatchChunks videos w).getD i []).length = clampWorkers videos.length w * 2) := by
  have hlen : 1 ≤ videos.length := by
    cases videos
    · exact absurd rfl hv
    · simp
  have hcl : 1 ≤ clampWorkers videos.length w * 2 := by
    unfold clampWorkers
    split <;> omega
  refine ⟨chunksF_flatten _ hcl _, ?_, chunksF_mem _ hcl _, chunksF_getD_full _ hcl _⟩
  rw [dispatchChunks, chunksF_length _ hcl]
  unfold clampWorkers
  split
  · rename_i hsmall
    have e1 : (videos.length + videos.length * 2 - 1) / (videos.length * 2) = 1 :=
      Nat.div_eq_of_lt_le (by omega) (by omega)
    have e2 : (videos.length + 2 * w - 1) / (2 * w) = 1 :=
      Nat.div_eq_of_lt_le (by omega) (by omega)
    rw [e1, e2]
  · have h2 : videos.length * 2 = 2 * videos.length := by omega
    have h3 : w * 2 = 2 * w := by omega
    rw [h3]

/-- C3 witness: three videos with one worker are dispatched in
`ceil(3 / 2) = 2` waves, `[v1, v2]` then `[v3]`. -/
theorem dispatch_waves_spec_witness :
    ([1, 2, 3] : List Nat) ≠ [] ∧ 1 ≤ 1 ∧
    ((dispatchChunks [1, 2, 3] 1).flatten = [1, 2, 3] ∧
     (dispatchChunks [1, 2, 3] 1).length = (3 + 2 * 1 - 1) / (2 * 1) ∧
     (∀ c ∈ dispatchChunks [1, 2, 3] 1, c ≠ [] ∧
       c.length ≤ clampWorkers 3 1 * 2) ∧
     (∀ i, i + 1 < (dispatchChunks [1, 2, 3] 1).length →
       ((dispatchChunks [1, 2, 3] 1).getD i []).length = clampWorkers 3 1 * 2)) :=
  ⟨by decide, by decide, dispatch_waves_spec [1, 2, 3] 1 (by decide) (by decide)⟩

/-! ### Checkpoint numbering (process_dataset.py lines 226-229 and 254-258)

`tmp_files` holds the integer indices of pre-existing `*.tmp.csv.{id}`
files; `previous_tmp_files = max(tmp_files) + 1` when any exist, else 0;
chunk `chunk_idx` is checkpointed to index `chunk_idx + previous_tmp_files`. -/

def maxOfList (l : List Nat) : Nat := l.foldl Nat.max 0

def previousTmpFiles (tmpIndices : List Nat) : Nat :=
  if 0 < tmpIndices.length then maxOfList tmpIndices + 1 else 0

def checkpointIndex (tmpIndices : List Nat) (chunkIdx : Nat) : Nat :=
  chunkIdx + previousTmpFiles tmpIndices

theorem foldl_max_init_le : ∀ (l : List Nat) (init : Nat), init ≤ l.foldl Nat.max init := by
  intro l
  induction l with
  | nil => simp
  | cons x xs ih =>
    intro init
    exact le_trans (Nat.le_max_left init x) (ih (Nat.max init x))

theorem mem_le_foldl_max : ∀ (l : List Nat) (init e : Nat), e ∈ l → e ≤ l.foldl Nat.max init := by
  intro l
  induction l with
  | nil => intro init e he; simp at he
  | cons x xs ih =>
    intro init e he
    rcases List.mem_cons.mp he with rfl | he
    · exact le_trans (Nat.le_max_right init e) (foldl_max_init_le xs _)
    · exact ih _ e he

/-- C4: checkpoint indices are `chunk_index + offset` with the offset fixed
at startup to one past the highest pre-existing index (0 when none); within
a run they are strictly increasing in the chunk index, they are strictly
above every pre-existing index, and starting with `tmp.csv.0` and
`tmp.csv.1` on disk the first new checkpoint gets index 2. -/
theorem checkpoint_index_spec (t : List Nat) (i j e : Nat)
    (hij : i < j) (he : e ∈ t) :
    checkpointIndex t i < checkpointIndex t j ∧
    e < checkpointIndex t i ∧
    checkpointIndex [0, 1] 0 = 2 := by
  refine ⟨by unfold checkpointIndex; omega, ?_, by decide⟩
  have hne : 0 < t.length := by
    cases t
    · simp at he
    · simp
  have hmax : e ≤ maxOfList t := mem_le_foldl_max t 0 e he
  unfold checkpointIndex previousTmpFiles
  rw [if_pos hne]
  omega

/-- C4 witness: with pre-existing indices 0 and 1 the run writes indices
2, 3, ... — strictly increasing and above both existing indices. -/
theorem checkpoint_index_spec_witness :
    (0 : Nat) < 1 ∧ (1 : Nat) ∈ [0, 1] ∧
    (checkpointIndex [0, 1] 0 < checkpointIndex [0, 1] 1 ∧
     1 < checkpointIndex [0, 1] 0 ∧
     checkpointIndex [0, 1] 0 = 2) :=
  ⟨by decide, by decide, checkpoint_index_spec [0, 1] 0 1 1 (by decide) (by decide)⟩

/-! ### Coordinator data model (process_dataset.py lines 183-187 and 235-252)

The accumulated table has columns
`[cam, timestamp, date, hour, minute, frame_id, model, top_scores, top_classes]`;
each per-video result is a list of `[frame_id, top_scores, top_classes]`
sub-rows, one per frame.  `split_date` delegates to `pandas.to_datetime`
and is modelled by a parameter producing the `(cam, ts, date, hour, minute)`
metadata of a video filename. -/

structure VideoMeta where
  cam : String
  ts : String
  date : String
  hour : String
  minute : String

structure FrameRow where
  frame_id : Nat
  top_scores : String
  top_classes : String
deriving DecidableEq

structure DetectionRow where
  cam : String
  timestamp : String
  date : String
  hour : String
  minute : String
  frame_id : Nat
  model : String
  top_scores : String
  top_classes : String

def toDetectionRow (meta : VideoMeta) (model : String) (fr : FrameRow) : DetectionRow :=
  { cam := meta.cam, timestamp := meta.ts, date := meta.date, hour := meta.hour,
    minute := meta.minute, frame_id := fr.frame_id, model := model,
    top_scores := fr.top_scores, top_classes := fr.top_classes }

/-- One iteration of the results loop: a per-video result with zero rows is
logged and skipped (`continue`), otherwise its sub-rows are tagged with the
filename metadata and appended to the accumulated table. -/
def appendResult (model : String) (parse : String → VideoMeta)
    (det : List DetectionRow) (vr : String × List FrameRow) : List DetectionRow :=
  if vr.2.length = 0 then det
  else det ++ vr.2.map (toDetectionRow (parse vr.1) model)

def processWave (model : String) (parse : String → VideoMeta)
    (det : List DetectionRow) (wave : List (String × List FrameRow)) :
    List DetectionRow :=
  wave.foldl (appendResult model parse) det

/-- The accumulated `detections` table after the first `N` waves have been
collected, starting from the empty table. -/
def tableAfterWaves (model : String) (parse : String → VideoMeta)
    (waves : List (List (String × List FrameRow))) (N : Nat) : List DetectionRow :=
  (waves.take N).foldl (processWave model parse) []

theorem appendResult_eq (model : String) (parse : String → VideoMeta)
    (det : List DetectionRow) (vr : String × List FrameRow) :
    appendResult model parse det vr =
      det ++ vr.2.map (toDetectionRow (parse vr.1) model) := by
  unfold appendResult
  split
  · rename_i h
    rw [List.length_eq_zero] at h
    rw [h]
    simp
  · rfl

theorem processWave_eq (model : String) (parse : String → VideoMeta) :
    ∀ (wave : List (String × List FrameRow)) (det : List DetectionRow),
      processWave model parse det wave =
        det ++ (wave.map (fun vr => vr.2.map (toDetectionRow (parse vr.1) model))).flatten := by
  intro wave
  induction wave with
  | nil => intro det; simp [processWave]
  | cons vr rest ih =>
    intro det
    show processWave model parse (appendResult model parse det vr) rest = _
    rw [ih, appendResult_eq]
    simp

theorem foldl_processWave_eq (model : String) (parse : String → VideoMeta) :
    ∀ (ws : List (List (String × List FrameRow))) (det : List DetectionRow),
      ws.foldl (processWave model parse) det =
        det ++ (ws.map (fun w =>
          (w.map (fun vr => vr.2.map (toDetectionRow (parse vr.1) model))).flatten)).flatten := by
  intro ws
  induction ws with
  | nil => intro det; simp
  | cons w rest ih =>
    intro det
    show rest.foldl _ (processWave model parse det w) = _
    rw [ih, processWave_eq]
    simp

theorem sum_lengths_filter_nonempty (f : String × List FrameRow → List DetectionRow)
    (hf : ∀ vr, (f vr).length = vr.2.length) :
    ∀ (w : List (String × List FrameRow)),
      ((w.map f).map List.length).sum =
        ((w.filter (fun vr => !vr.2.isEmpty)).map (fun vr => vr.2.length)).sum := by
  intro w
  induction w with
  | nil => simp
  | cons vr rest ih =>
    by_cases h : vr.2.isEmpty
    · have h0 : vr.2.length = 0 := by
        rw [List.isEmpty_iff] at h
        rw [h]
        rfl
      simp only [List.map_cons, List.sum_cons, List.filter_cons, h]
      rw [hf vr, h0, ih]
      simp
    · simp only [List.map_cons, List.sum_cons, List.filter_cons]
      rw [Bool.not_eq_true] at h
      simp only [h]
      rw [hf vr, ih]
      simp

/-- C5: after `N` collected waves the accumulated table is exactly the
concatenation, in collection order, of one `DetectionRow` per frame of
each per-video result of waves `1..N`; its row count is the sum of the
frame counts of the non-empty per-video results of those waves; and the
table after `N` waves is an initial segment of the table after `N + 1`
waves — rows are only ever appended, never removed or modified. -/
theorem accumulated_table_spec (model : String) (parse : String → VideoMeta)
    (waves : List (List (String × List FrameRow))) (N : Nat) :
    tableAfterWaves model parse waves N =
      ((waves.take N).map (fun w =>
        (w.map (fun vr => vr.2.map (toDetectionRow (parse vr.1) model))).flatten)).flatten ∧
    (tableAfterWaves model parse waves N).length =
      ((waves.take N).map (fun w =>
        ((w.filter (fun vr => !vr.2.isEmpty)).map (fun vr => vr.2.length)).sum)).sum ∧
    ∃ t, tableAfterWaves model parse waves (N + 1) =
      tableAfterWaves model parse waves N ++ t := by
  have htab : ∀ M, tableAfterWaves model parse waves M =
      ((waves.take M).map (fun w =>
        (w.map (fun vr => vr.2.map (toDetectionRow (parse vr.1) model))).flatten)).flatten := by
    intro M
    unfold tableAfterWaves
    rw [foldl_processWave_eq]
    simp
  refine ⟨htab N, ?_, ?_⟩
  · rw [htab N]
    rw [List.length_flatten, List.map_map]
    congr 1
    apply List.map_congr_left
    intro w _
    simp only [Function.comp_apply]
    rw [List.length_flatten]
    exact sum_lengths_filter_nonempty
      (fun vr => vr.2.map (toDetectionRow (parse vr.1) model)) (by intro vr; simp) w
  · rw [htab N, htab (N + 1), List.take_succ]
    refine ⟨((waves[N]?.toList).map (fun w =>
      (w.map (fun vr => vr.2.map (toDetectionRow (parse vr.1) model))).flatten)).flatten, ?_⟩
    simp

/-! ### Per-video inference runner (process_dataset.py lines 84-141)

`infer_video` reads frames in a loop; the first successful read fixes the
reported frame shape, a failed first read reports shape `(0, 0)` and an
empty result list.  `process_video` then builds one
`[frame_id, top_scores, top_classes]` row per frame of the returned data.
Frame decoding and per-frame inference are external (OpenCV and the model
call) and appear as the frame list and the `runTop` parameter. -/

structure Frame where
  height : Nat
  width : Nat
  channels : Nat

def infer_video {α : Type} (runTop : Frame → α) (frames : List Frame) :
    List α × List Nat :=
  match frames with
  | [] => ([], [0, 0])
  | f :: _ => (frames.map runTop, [f.height, f.width, f.channels])

/-- The rows built by `process_video` from the per-frame inference data:
`rows = [[i, s, classes[i]] for i, s in enumerate(scores)]` with one
serialized scores/classes string per frame. -/
def processVideoRows {α : Type} (scoreStr classStr : α → String)
    (data : List α) : List FrameRow :=
  data.enum.map (fun p => { frame_id := p.1, top_scores := scoreStr p.2,
                            top_classes := classStr p.2 })

/-- C9: a video with zero decodable frames yields the shape `(0, 0)` and an
empty per-frame result list from `infer_video`, `process_video` builds no
row from it, and the coordinator's results loop appends nothing to the
accumulated table for it (`continue` on an empty result). -/
theorem zero_frames_spec {α : Type} (runTop : Frame → α)
    (scoreStr classStr : α → String) (model : String)
    (parse : String → VideoMeta) (det : List DetectionRow) (v : String) :
    infer_video runTop ([] : List Frame) = (([] : List α), [0, 0]) ∧
    processVideoRows scoreStr classStr (infer_video runTop ([] : List Frame)).1 = [] ∧
    appendResult model parse det (v, ([] : List FrameRow)) = det := by
  refine ⟨rfl, rfl, ?_⟩
  unfold appendResult
  simp

/-! ### Completion counting (process_dataset.py lines 189-191 and 262-266)

`videos_processed` is a `defaultdict(int)` keyed by video path, modelled as
an association list where the most recent binding shadows older ones and a
missing key reads as 0.  After each chunk's results are drained the source
runs, once, `videos_processed[filename] += 1` with `filename` still bound to
the chunk's last video, and then moves/evicts that video when its counter
equals `len(models)` and `move_when_done` is set. -/

def lookupCount (m : List (String × Nat)) (k : String) : Nat :=
  match m.find? (fun p => p.1 == k) with
  | some p => p.2
  | none => 0

def stepChunkCounters (numModels : Nat) (moveWhenDone : Option String)
    (counters : List (String × Nat)) (chunk : List String) :
    List (String × Nat) × List (String × String) :=
  match chunk.getLast? with
  | none => (counters, [])
  | some filename =>
    let c := lookupCount counters filename + 1
    let counters' := (filename, c) :: counters
    match moveWhenDone with
    | some dest =>
      if c = numModels then
        (counters'.filter (fun p => p.1 != filename), [(filename, dest)])
      else (counters', [])
    | none => (counters', [])

theorem lookupCount_cons_ne (m : List (String × Nat)) (f k : String) (c : Nat)
    (h : k ≠ f) : lookupCount ((f, c) :: m) k = lookupCount m k := by
  unfold lookupCount
  rw [List.find?_cons_of_neg]
  simp only [beq_iff_eq]
  exact fun hc => h hc.symm

theorem lookupCount_cons_self (m : List (String × Nat)) (f : String) (c : Nat) :
    lookupCount ((f, c) :: m) f = c := by
  unfold lookupCount
  rw [List.find?_cons_of_pos]
  simp

theorem lookupCount_filter_ne (f k : String) (h : k ≠ f) :
    ∀ m : List (String × Nat),
      lookupCount (m.filter (fun p => p.1 != f)) k = lookupCount m k := by
  intro m
  induction m with
  | nil => rfl
  | cons q rest ih =>
    by_cases hq : q.1 = f
    · rw [List.filter_cons_of_neg (by simp [hq])]
      rw [ih]
      unfold lookupCount
      rw [List.find?_cons_of_neg]
      simp only [beq_iff_eq, hq]
      exact fun hc => h hc.symm
    · rw [List.filter_cons_of_pos (by simp [hq])]
      by_cases hk : q.1 = k
      · unfold lookupCount
        rw [List.find?_cons_of_pos _ (by simp [hk]), List.find?_cons_of_pos _ (by simp [hk])]
      · unfold lookupCount
        rw [List.find?_cons_of_neg _ (by simp [hk]), List.find?_cons_of_neg _ (by simp [hk])]
        exact ih

/-- C2: for every non-empty processed chunk, the counter of exactly one
video is touched — the chunk's last video `f`: all other counters are
unchanged; and whenever the incremented counter reaches the number of
configured models while a relocation target is specified, `f` is moved to
the target and its counter entry disappears from the map, while otherwise
`f`'s counter is simply one higher and nothing is moved. -/
theorem completion_counter_step_spec (numModels : Nat) (mwd : Option String)
    (counters : List (String × Nat)) (chunk : List String) (f : String)
    (hf : chunk.getLast? = some f) :
    (∀ k, k ≠ f →
      lookupCount (stepChunkCounters numModels mwd counters chunk).1 k =
        lookupCount counters k) ∧
    (∀ d, mwd = some d → lookupCount counters f + 1 = numModels →
      (stepChunkCounters numModels mwd counters chunk).2 = [(f, d)] ∧
      (stepChunkCounters numModels mwd counters chunk).1.find?
        (fun p => p.1 == f) = none) ∧
    ((mwd = none ∨ lookupCount counters f + 1 ≠ numModels) →
      lookupCount (stepChunkCounters numModels mwd counters chunk).1 f =
        lookupCount counters f + 1 ∧
      (stepChunkCounters numModels mwd counters chunk).2 = []) := by
  cases mwd with
  | none =>
    simp only [stepChunkCounters, hf]
    refine ⟨fun k hk => lookupCount_cons_ne _ _ _ _ hk, ?_, ?_⟩
    · intro d hd
      simp at hd
    · intro _
      exact ⟨lookupCount_cons_self _ _ _, trivial⟩
  | some dest =>
    simp only [stepChunkCounters, hf]
    by_cases hc : lookupCount counters f + 1 = numModels
    · rw [if_pos hc]
      refine ⟨?_, ?_, ?_⟩
      · intro k hk
        rw [lookupCount_filter_ne f k hk ((f, lookupCount counters f + 1) :: counters)]
        exact lookupCount_cons_ne _ _ _ _ hk
      · intro d hd _
        refine ⟨by injection hd with h; rw [h], ?_⟩
        rw [List.find?_eq_none]
        intro p hp
        have := (List.mem_filter.mp hp).2
        simp only [bne_iff_ne, ne_eq] at this
        simp [this]
      · intro hcon
        rcases hcon with h | h
        · simp at h
        · exact absurd hc h
    · rw [if_neg hc]
      refine ⟨fun k hk => lookupCount_cons_ne _ _ _ _ hk, ?_, ?_⟩
      · intro d hd hnum
        exact absurd hnum hc
      · intro _
        exact ⟨lookupCount_cons_self _ _ _, rfl⟩

/-- C2 witness: chunk `["a", "b"]` with one configured model, an empty
counter map and target `"done"`: the last video `"b"` reaches the model
count, is moved, and its entry is dropped; other counters are untouched. -/
theorem completion_counter_step_spec_witness :
    (["a", "b"] : List String).getLast? = some "b" ∧
    ((∀ k, k ≠ "b" →
      lookupCount (stepChunkCounters 1 (some "done") [] ["a", "b"]).1 k =
        lookupCount [] k) ∧
    (∀ d, (some "done" : Option String) = some d → lookupCount [] "b" + 1 = 1 →
      (stepChunkCounters 1 (some "done") [] ["a", "b"]).2 = [("b", d)] ∧
      (stepChunkCounters 1 (some "done") [] ["a", "b"]).1.find?
        (fun p => p.1 == "b") = none) ∧
    (((some "done" : Option String) = none ∨ lookupCount [] "b" + 1 ≠ 1) →
      lookupCount (stepChunkCounters 1 (some "done") [] ["a", "b"]).1 "b" =
        lookupCount [] "b" + 1 ∧
      (stepChunkCounters 1 (some "done") [] ["a", "b"]).2 = [])) :=
  ⟨by decide, completion_counter_step_spec 1 (some "done") [] ["a", "b"] "b" (by decide)⟩

/-! ### Per-video skip (process_dataset.py lines 208-211)

`videos = [v for v in videos if not os.path.isfile(f'{output}/{Path(v).stem}.pkl')]`.
The filesystem probe `os.path.isfile` and `Path.stem` are external and
appear as function parameters; `process_video` writes its per-video pickle
to the same `f'{output}/{stem}.pkl'` path, here `pklPath`. -/

def pklPath (output stem : String) : String := output ++ "/" ++ stem ++ ".pkl"

def filterPerVideo (fileExists : String → Bool) (stemOf : String → String)
    (output : String) (videos : List String) : List String :=
  videos.filter (fun v => !fileExists (pklPath output (stemOf v)))

/-- C8: in per-video mode a video stays in the worklist exactly when it was
enumerated and its per-video result file (pickle named after its stem in the
output directory) does not exist; the survivors keep their order, and
re-filtering the already-filtered list changes nothing — the skip is
idempotent with respect to already-produced per-video files. -/
theorem per_video_skip_spec (fe : String → Bool) (st : String → String)
    (out : String) (videos : List String) (v : String) :
    (v ∈ filterPerVideo fe st out videos ↔
      v ∈ videos ∧ fe (pklPath out (st v)) = false) ∧
    List.Sublist (filterPerVideo fe st out videos) videos ∧
    filterPerVideo fe st out (filterPerVideo fe st out videos) =
      filterPerVideo fe st out videos := by
  refine ⟨?_, List.filter_sublist _, ?_⟩
  · unfold filterPerVideo
    rw [List.mem_filter]
    simp
  · unfold filterPerVideo
    rw [List.filter_filter]
    simp

/-! ### Fast-mode deduplication (process_dataset.py lines 193-206)

With `process_all` false the enumeration loop computes
`ts = f.stem.split('.')[0]`, `cam = f.stem.split('.')[1]`,
`date, hour, minute = split_date(ts)` and the bucket key
`f'[{cam}] {date}:{hour}'`; `processed_ts` is a `defaultdict(bool)` whose
missing keys read `False` and in which a kept video stores its (truthy,
non-empty) stem.  `str.split('.')` is modelled by `splitDots`,
`split_date` (a `pandas.to_datetime` call) by the `splitDate` parameter,
and `Path.stem` by the `stem` field of the enumerated file. -/

structure VideoFile where
  path : String
  stem : String
deriving DecidableEq

def splitDotsAux : List Char → List Char → List String
  | acc, [] => [String.mk acc.reverse]
  | acc, c :: cs =>
    if c = '.' then String.mk acc.reverse :: splitDotsAux [] cs
    else splitDotsAux (c :: acc) cs

def splitDots (s : String) : List String := splitDotsAux [] s.toList

def keyOf (splitDate : String → String × String × String) (v : VideoFile) : String :=
  let parts := splitDots v.stem
  let ts := parts.headD ""
  let cam := parts.getD 1 ""
  "[" ++ cam ++ "] " ++ (splitDate ts).1 ++ ":" ++ (splitDate ts).2.1

/-- Truthiness of `processed_ts[key]`: missing keys read `False`
(`defaultdict(bool)`), stored stems are truthy exactly when non-empty. -/
def ptTruthy (m : List (String × String)) (k : String) : Bool :=
  match m.find? (fun p => p.1 == k) with
  | some p => p.2 != ""
  | none => false

def fastFilterGo (sd : String → String × String × String) :
    List (String × String) → List VideoFile → List VideoFile
  | _, [] => []
  | m, f :: fs =>
    if ptTruthy m (keyOf sd f) then fastFilterGo sd m fs
    else f :: fastFilterGo sd ((keyOf sd f, f.stem) :: m) fs

def fastFilter (sd : String → String × String × String)
    (dataset : List VideoFile) : List VideoFile :=
  fastFilterGo sd [] dataset

theorem ptTruthy_cons_self (m : List (String × String)) (k s : String) :
    ptTruthy ((k, s) :: m) k = (s != "") := by
  unfold ptTruthy
  rw [List.find?_cons_of_pos _ (by simp)]

theorem ptTruthy_cons_ne (m : List (String × String)) (k k' s : String)
    (h : k' ≠ k) : ptTruthy ((k, s) :: m) k' = ptTruthy m k' := by
  unfold ptTruthy
  rw [List.find?_cons_of_neg _ (by simpa using fun hc => h hc.symm)]

theorem fastFilterGo_sublist (sd : String → String × String × String) :
    ∀ (fs : List VideoFile) (m : List (String × String)),
      List.Sublist (fastFilterGo sd m fs) fs := by
  intro fs
  induction fs with
  | nil => intro m; simp [fastFilterGo]
  | cons f rest ih =>
    intro m
    simp only [fastFilterGo]
    split
    · exact List.Sublist.cons f (ih m)
    · exact List.Sublist.cons₂ f (ih _)

theorem fastFilterGo_filter_key (sd : String → String × String × String) (k : String) :
    ∀ (fs : List VideoFile) (m : List (String × String)),
      (∀ f ∈ fs, f.stem ≠ "") →
      (fastFilterGo sd m fs).filter (fun f => keyOf sd f == k) =
        if ptTruthy m k then []
        else (fs.filter (fun f => keyOf sd f == k)).take 1 := by
  intro fs
  induction fs with
  | nil =>
    intro m _
    cases htr : ptTruthy m k <;> simp [fastFilterGo, htr]
  | cons f rest ih =>
    intro m h
    have hstem : f.stem ≠ "" := h f (List.mem_cons_self f rest)
    have hrest : ∀ g ∈ rest, g.stem ≠ "" := fun g hg => h g (List.mem_cons_of_mem f hg)
    by_cases hkey : keyOf sd f = k
    · subst hkey
      cases htr : ptTruthy m (keyOf sd f) with
      | false =>
        simp only [fastFilterGo, htr, Bool.false_eq_true, if_false]
        rw [List.filter_cons_of_pos (by simp), List.filter_cons_of_pos (by simp)]
        rw [ih _ hrest, ptTruthy_cons_self]
        have : (f.stem != "") = true := by simpa using hstem
        rw [this]
        simp
      | true =>
        simp only [fastFilterGo, htr, if_true]
        rw [ih m hrest, htr]
        simp
    · have hbeq : (keyOf sd f == k) = false := by simpa using hkey
      cases htr : ptTruthy m (keyOf sd f) with
      | false =>
        simp only [fastFilterGo, htr, Bool.false_eq_true, if_false]
        rw [List.filter_cons_of_neg (by simp [hbeq]), List.filter_cons_of_neg (by simp [hbeq])]
        rw [ih _ hrest, ptTruthy_cons_ne _ _ _ _ (fun hc => hkey hc.symm)]
      | true =>
        simp only [fastFilterGo, htr, if_true]
        rw [ih m hrest, List.filter_cons_of_neg (by simp [hbeq])]

/-- C6: in fast mode (`process_all` false) the kept video list, restricted
to any single `(camera, date, hour)` bucket key, is exactly the first
enumerated video of that bucket — so at most one video survives per bucket,
it is the earliest in enumeration order, and all later videos of the same
bucket are dropped; the kept list preserves enumeration order.  The
hypothesis that stems are non-empty reflects that a kept video marks its
bucket with its stem, which is truthy only when non-empty. -/
theorem fast_mode_dedup_spec (sd : String → String × String × String)
    (dataset : List VideoFile) (h : ∀ f ∈ dataset, f.stem ≠ "") (k : String) :
    (fastFilter sd dataset).filter (fun f => keyOf sd f == k) =
      (dataset.filter (fun f => keyOf sd f == k)).take 1 ∧
    List.Sublist (fastFilter sd dataset) dataset := by
  constructor
  · have hmain := fastFilterGo_filter_key sd k dataset [] h
    have hempty : ptTruthy [] k = false := rfl
    rw [hempty] at hmain
    simpa [fastFilter] using hmain
  · exact fastFilterGo_sublist sd dataset []

/-- A `split_date` stand-in placing every timestamp in the 10 o'clock
bucket of 2020-01-01, so that two videos of the same camera collide. -/
def sdC6 : String → String × String × String := fun ts => ("2020-01-01", "10", ts)

def vidA : VideoFile := { path := "cams/t1.cam1.mkv", stem := "t1.cam1" }

def vidB : VideoFile := { path := "cams/t2.cam1.mkv", stem := "t2.cam1" }

def keyC6 : String := "[cam1] 2020-01-01:10"

/-- C6 witness: of two same-bucket videos only the first enumerated one
survives fast-mode deduplication. -/
theorem fast_mode_dedup_spec_witness :
    (∀ f ∈ [vidA, vidB], f.stem ≠ "") ∧
    ((fastFilter sdC6 [vidA, vidB]).filter (fun f => keyOf sdC6 f == keyC6) =
      ([vidA, vidB].filter (fun f => keyOf sdC6 f == keyC6)).take 1 ∧
     List.Sublist (fastFilter sdC6 [vidA, vidB]) [vidA, vidB]) :=
  ⟨by decide, fast_mode_dedup_spec sdC6 [vidA, vidB] (by decide) keyC6⟩

/-! ### Training-example conversion (dnn/dataset.py, `create_tf_example`)

For one image group the loop collects the bounding-box coordinates of every
detection row divided by the image width/height and the class ids looked up
in the label map (a missing class raises `KeyError` mid-loop, before
validation), then asserts `max(xmins+xmaxs+ymins+ymaxs) <= 1.1` and
`min(...) >= 0.0`, aborting the conversion on violation.  Float values are
modelled as rationals; Python's `max`/`min` of a list by `maxQ`/`minQ`. -/

structure AnnRow where
  xmin : ℚ
  xmax : ℚ
  ymin : ℚ
  ymax : ℚ
  cls : String

structure TfExample where
  width : ℚ
  height : ℚ
  xmins : List ℚ
  xmaxs : List ℚ
  ymins : List ℚ
  ymaxs : List ℚ
  classes_text : List String
  classes : List Nat

/-- The four normalized coordinate lists in the order Python concatenates
them for validation: `xmins + xmaxs + ymins + ymaxs`. -/
def normCoords (width height : ℚ) (rows : List AnnRow) : List ℚ :=
  (rows.map (fun r => r.xmin / width)) ++ (rows.map (fun r => r.xmax / width))
    ++ (rows.map (fun r => r.ymin / height)) ++ (rows.map (fun r => r.ymax / height))

/-- `classes.append(id_map[row['class']])` over the group's rows: `none`
models the `KeyError` on a class missing from the label map. -/
def lookupClasses (idMap : String → Option Nat) : List AnnRow → Option (List Nat)
  | [] => some []
  | r :: rest =>
    match idMap r.cls, lookupClasses idMap rest with
    | some i, some is => some (i :: is)
    | _, _ => none

def maxQ : List ℚ → Option ℚ
  | [] => none
  | x :: xs => some (xs.foldl max x)

def minQ : List ℚ → Option ℚ
  | [] => none
  | x :: xs => some (xs.foldl min x)

def create_tf_example (idMap : String → Option Nat) (width height : ℚ)
    (rows : List AnnRow) : Option TfExample :=
  match lookupClasses idMap rows with
  | none => none
  | some classIds =>
    match maxQ (normCoords width height rows), minQ (normCoords width height rows) with
    | some mx, some mn =>
      if 11 / 10 < mx then none
      else if mn < 0 then none
      else some { width := width, height := height,
                  xmins := rows.map (fun r => r.xmin / width),
                  xmaxs := rows.map (fun r => r.xmax / width),
                  ymins := rows.map (fun r => r.ymin / height),
                  ymaxs := rows.map (fun r => r.ymax / height),
                  classes_text := rows.map (fun r => r.cls),
                  classes := classIds }
    | _, _ => none

theorem foldl_max_le_self : ∀ (xs : List ℚ) (a : ℚ), a ≤ xs.foldl max a := by
  intro xs
  induction xs with
  | nil => intro a; exact le_refl a
  | cons x xs ih => intro a; exact le_trans (le_max_left a x) (ih (max a x))

theorem le_foldl_max_of_mem : ∀ (xs : List ℚ) (a q : ℚ), q ∈ xs → q ≤ xs.foldl max a := by
  intro xs
  induction xs with
  | nil => intro a q hq; simp at hq
  | cons x xs ih =>
    intro a q hq
    rcases List.mem_cons.mp hq with rfl | hq
    · exact le_trans (le_max_right a q) (foldl_max_le_self xs _)
    · exact ih _ q hq

theorem foldl_max_attained : ∀ (xs : List ℚ) (a : ℚ),
    xs.foldl max a = a ∨ xs.foldl max a ∈ xs := by
  intro xs
  induction xs with
  | nil => intro a; exact Or.inl rfl
  | cons x xs ih =>
    intro a
    rcases ih (max a x) with h | h
    · rcases max_choice a x with hm | hm
      · exact Or.inl (by rw [List.foldl_cons, h, hm])
      · refine Or.inr ?_
        rw [List.foldl_cons, h, hm]
        exact List.mem_cons_self x xs
    · exact Or.inr (List.mem_cons_of_mem x h)

theorem foldl_min_ge_self : ∀ (xs : List ℚ) (a : ℚ), xs.foldl min a ≤ a := by
  intro xs
  induction xs with
  | nil => intro a; exact le_refl a
  | cons x xs ih => intro a; exact le_trans (ih (min a x)) (min_le_left a x)

theorem foldl_min_le_of_mem : ∀ (xs : List ℚ) (a q : ℚ), q ∈ xs → xs.foldl min a ≤ q := by
  intro xs
  induction xs with
  | nil => intro a q hq; simp at hq
  | cons x xs ih =>
    intro a q hq
    rcases List.mem_cons.mp hq with rfl | hq
    · exact le_trans (foldl_min_ge_self xs _) (min_le_right a q)
    · exact ih _ q hq

theorem foldl_min_attained : ∀ (xs : List ℚ) (a : ℚ),
    xs.foldl min a = a ∨ xs.foldl min a ∈ xs := by
  intro xs
  induction xs with
  | nil => intro a; exact Or.inl rfl
  | cons x xs ih =>
    intro a
    rcases ih (min a x) with h | h
    · rcases min_choice a x with hm | hm
      · exact Or.inl (by rw [List.foldl_cons, h, hm])
      · refine Or.inr ?_
        rw [List.foldl_cons, h, hm]
        exact List.mem_cons_self x xs
    · exact Or.inr (List.mem_cons_of_mem x h)

theorem lookupClasses_isSome (idMap : String → Option Nat) :
    ∀ (rows : List AnnRow), (∀ r ∈ rows, (idMap r.cls).isSome = true) →
      ∃ is, lookupClasses idMap rows = some is := by
  intro rows
  induction rows with
  | nil => intro _; exact ⟨[], rfl⟩
  | cons r rest ih =>
    intro h
    obtain ⟨i, hi⟩ := Option.isSome_iff_exists.mp (h r (List.mem_cons_self r rest))
    obtain ⟨is, his⟩ := ih (fun x hx => h x (List.mem_cons_of_mem r hx))
    exact ⟨i :: is, by simp [lookupClasses, hi, his]⟩

/-- C7: provided the group is non-empty and every class is present in the
label map (the conversion's other failure sources), `create_tf_example`
succeeds exactly when every normalized coordinate — each of xmin, xmax
divided by the image width and ymin, ymax divided by the image height —
lies in the tolerance interval `[0, 1.1]`, and aborts when any coordinate
exceeds `1.1` or is below `0`. -/
theorem create_tf_example_validation_spec (idMap : String → Option Nat)
    (width height : ℚ) (rows : List AnnRow) (hne : rows ≠ [])
    (hid : ∀ r ∈ rows, (idMap r.cls).isSome = true) :
    (create_tf_example idMap width height rows).isSome = true ↔
      ∀ q ∈ normCoords width height rows, 0 ≤ q ∧ q ≤ 11 / 10 := by
  obtain ⟨classIds, hcl⟩ := lookupClasses_isSome idMap rows hid
  cases hbase : normCoords width height rows with
  | nil =>
    exfalso
    apply hne
    cases rows with
    | nil => rfl
    | cons r rest => simp [normCoords] at hbase
  | cons x cs =>
    simp only [create_tf_example, hcl, hbase, maxQ, minQ]
    by_cases h1 : (11 : ℚ) / 10 < cs.foldl max x
    · rw [if_pos h1]
      simp only [Option.isSome_none, Bool.false_eq_true, false_iff]
      intro hall
      have hmem : cs.foldl max x ∈ x :: cs := by
        rcases foldl_max_attained cs x with h | h
        · rw [h]; exact List.mem_cons_self x cs
        · exact List.mem_cons_of_mem x h
      have := (hall _ hmem).2
      linarith
    · rw [if_neg h1]
      by_cases h2 : cs.foldl min x < 0
      · rw [if_pos h2]
        simp only [Option.isSome_none, Bool.false_eq_true, false_iff]
        intro hall
        have hmem : cs.foldl min x ∈ x :: cs := by
          rcases foldl_min_attained cs x with h | h
          · rw [h]; exact List.mem_cons_self x cs
          · exact List.mem_cons_of_mem x h
        have := (hall _ hmem).1
        linarith
      · rw [if_neg h2]
        simp only [Option.isSome_some, true_iff]
        intro q hq
        constructor
        · have hlow : cs.foldl min x ≤ q := by
            rcases List.mem_cons.mp hq with rfl | hq
            · exact foldl_min_ge_self cs q
            · exact foldl_min_le_of_mem cs x q hq
          linarith
        · have hhigh : q ≤ cs.foldl max x := by
            rcases List.mem_cons.mp hq with rfl | hq
            · exact foldl_max_le_self cs q
            · exact le_foldl_max_of_mem cs x q hq
          linarith

def idMapC7 : String → Option Nat := fun s => if s = "car" then some 3 else none

/-- One detection row whose largest normalized coordinate is
`105 / 100 = 1.05`: inside the tolerance. -/
def rowsPass : List AnnRow :=
  [{ xmin := 0, xmax := 105, ymin := 0, ymax := 50, cls := "car" }]

/-- One detection row whose largest normalized coordinate is
`120 / 100 = 1.2`: beyond the tolerance. -/
def rowsAbort : List AnnRow :=
  [{ xmin := 0, xmax := 120, ymin := 0, ymax := 50, cls := "car" }]

/-- C7 witness: on a 100×100 image, a row with `xmax/width = 1.05`
converts successfully while a row with `xmax/width = 1.2` aborts. -/
theorem create_tf_example_validation_spec_witness :
    rowsPass ≠ [] ∧ (∀ r ∈ rowsPass, (idMapC7 r.cls).isSome = true) ∧
    ((create_tf_example idMapC7 100 100 rowsPass).isSome = true ↔
      ∀ q ∈ normCoords 100 100 rowsPass, 0 ≤ q ∧ q ≤ 11 / 10) ∧
    (create_tf_example idMapC7 100 100 rowsPass).isSome = true ∧
    (create_tf_example idMapC7 100 100 rowsAbort).isSome = false := by
  have hidPass : ∀ r ∈ rowsPass, (idMapC7 r.cls).isSome = true := by
    intro r hr
    simp [rowsPass] at hr
    subst hr
    simp [idMapC7]
  have hidAbort : ∀ r ∈ rowsAbort, (idMapC7 r.cls).isSome = true := by
    intro r hr
    simp [rowsAbort] at hr
    subst hr
    simp [idMapC7]
  have hiff := create_tf_example_validation_spec idMapC7 100 100 rowsPass
    (by simp [rowsPass]) hidPass
  refine ⟨by simp [rowsPass], hidPass, hiff, ?_, ?_⟩
  · exact hiff.mpr (by norm_num [normCoords, rowsPass])
  · rw [Bool.eq_false_iff]
    intro hsome
    have hall := (create_tf_example_validation_spec idMapC7 100 100 rowsAbort
      (by simp [rowsAbort]) hidAbort).mp hsome
    have := (hall ((120 : ℚ) / 100) (by norm_num [normCoords, rowsAbort])).2
    norm_num at this

/-! ### Coordinator run and its failure on an empty worklist
(process_dataset.py lines 222-271)

`coordinatorRun` threads the dispatch loop's observable effects: one
checkpoint write (of the full cumulative table) per non-empty per-video
result, tagged with `chunk_idx + previous_tmp_files`, and one final CSV
write after all chunks.  Per-video inference is the `results` oracle.
When the worklist is empty the clamp `max_workers = len(query_args)` sets
the worker count to 0 and `chunks(query_args, 0)` raises `ValueError` as
soon as the `for` loop advances the generator, before anything is written:
the `Except.error` carries no write events. -/

inductive WriteEvent
  | checkpoint (idx : Nat)
  | csvFinal
deriving DecidableEq

def coordinatorRun (model : String) (parse : String → VideoMeta)
    (results : String → List FrameRow) (prevTmp : List Nat)
    (videos : List String) (maxWorkers : Nat) :
    Except String (List WriteEvent × List DetectionRow) :=
  match chunksE (clampWorkers videos.length maxWorkers * 2) videos with
  | none => Except.error "range() arg 3 must not be zero"
  | some cs =>
    let out := cs.enum.foldl (fun acc p =>
      p.2.foldl (fun acc2 v =>
        if (results v).length = 0 then acc2
        else (acc2.1 ++ [WriteEvent.checkpoint (p.1 + previousTmpFiles prevTmp)],
              acc2.2 ++ (results v).map (toDetectionRow (parse v) model))) acc)
      ([], [])
    Except.ok (out.1 ++ [WriteEvent.csvFinal], out.2)

/-- C10: with an empty list of videos to process (nothing enumerated, or
per-video mode skipped everything) and any configured worker count `w ≥ 1`,
the coordinator raises before writing any output: the worker count is
clamped down to 0, the chunking generator is invoked with chunk size 0 and
its first advancement raises `ValueError`, so neither a checkpoint nor the
final (empty) CSV is ever produced. -/
theorem empty_videos_raises_spec (model : String) (parse : String → VideoMeta)
    (results : String → List FrameRow) (prevTmp : List Nat) (mw : Nat)
    (hw : 1 ≤ mw) :
    clampWorkers (List.length ([] : List String)) mw = 0 ∧
    coordinatorRun model parse results prevTmp [] mw =
      Except.error "range() arg 3 must not be zero" := by
  have hcl : clampWorkers (List.length ([] : List String)) mw = 0 := by
    unfold clampWorkers
    rw [if_pos (by simp only [List.length_nil]; omega)]
    rfl
  refine ⟨hcl, ?_⟩
  unfold coordinatorRun
  rw [hcl]
  rfl

def metaEmpty : VideoMeta := { cam := "", ts := "", date := "", hour := "", minute := "" }

/-- C10 witness: one configured worker and no videos — the run errors out
with the range step error and produces no write events. -/
theorem empty_videos_raises_spec_witness :
    1 ≤ 1 ∧
    (clampWorkers (List.length ([] : List String)) 1 = 0 ∧
     coordinatorRun "edge" (fun _ => metaEmpty) (fun _ => []) [] [] 1 =
       Except.error "range() arg 3 must not be zero") :=
  ⟨by decide,
   empty_videos_raises_spec "edge" (fun _ => metaEmpty) (fun _ => []) [] 1 (by decide)⟩

/-! ### Classification top-K extraction (process_dataset.py lines 56-68)

`get_top_torch(preds, topn=10)` clamps `topn` to `len(preds)`, calls
`np.argpartition(-preds, 5)` — the partition position is hard-coded to 5,
not `topn` — slices the first `topn` indices, builds the list
`results = [[str(idx), score(idx)] for idx in idxs]`, and returns
`{'idxs': results[0], 'scores': results[1]}`: the single `[index, score]`
pairs at positions 0 and 1, not the columns of `results`.

`np.argpartition` leaves the order within each side of the pivot
unspecified, so the embedding takes the produced index array as an input
`argpart` constrained by `isValidArgpartitionNeg` — any permutation of
`range(len(preds))` whose entries at positions `≤ k` score at least the
entries at positions `≥ k` (partitioning `-preds` at `kth = k` in
ascending order is partitioning `preds` in descending order).  Scores are
modelled as integers; the stringification of indices and scores is
dropped, keeping the `(index, score)` content of each `results` entry. -/

def isValidArgpartitionNeg (preds : List Int) (k : Nat) (idxs : List Nat) : Prop :=
  List.Perm idxs (List.range preds.length) ∧
  ∀ i < idxs.length, ∀ j < idxs.length, i ≤ k → k ≤ j →
    preds.getD (idxs.getD j 0) 0 ≤ preds.getD (idxs.getD i 0) 0

structure TorchTop where
  idxs : Nat × Int
  scores : Nat × Int
deriving DecidableEq

def get_top_torch (preds : List Int) (argpart : List Nat) (topn : Nat) : TorchTop :=
  let topnClamped := if preds.length < topn then preds.length else topn
  let results := (argpart.take topnClamped).map (fun idx => (idx, preds.getD idx 0))
  { idxs := results.getD 0 (0, 0), scores := results.getD 1 (0, 0) }

/-- Twelve class scores, class index `n` scoring `n`. -/
def predsC1 : List Int := [0, 1, 2, 3, 4, 5, 6, 7, 8, 9, 10, 11]

/-- A legal result of `np.argpartition(-predsC1, 5)`: positions 0..5 hold
the six best classes, the tail holds the rest. -/
def idxsC1 : List Nat := [11, 10, 9, 8, 7, 6, 0, 1, 2, 3, 4, 5]

/-- C1: evaluation of `get_top_torch` on twelve class scores `0..11` with
the default `topn = 10` and a legal `np.argpartition(-preds, 5)` index
order.  Class 4 is among the ten highest-scoring classes (fewer than ten
classes score above it), yet it appears in neither of the only two
`(index, score)` entries the function returns — the output holds
`results[0]` and `results[1]` instead of all `topn` index/score pairs, and
the partition pivot is fixed at 5 — so the output does not contain the K
highest-scoring class indices with their scores. -/
theorem get_top_torch_misses_top_class :
    isValidArgpartitionNeg predsC1 5 idxsC1 ∧
    ((List.range predsC1.length).filter
      (fun j => decide (predsC1.getD 4 0 < predsC1.getD j 0))).length < 10 ∧
    (get_top_torch predsC1 idxsC1 10).idxs.1 ≠ 4 ∧
    (get_top_torch predsC1 idxsC1 10).scores.1 ≠ 4 := by
  refine ⟨⟨by decide, by decide⟩, by decide, by decide, by decide⟩

end EdgeAutotune
